import Mathlib

/-!
# finddup: duplicate files by size and MD5

A shallow embedding of `finddup.go` and the properties of its pipeline

    findFiles  →  findSize  →  findMd5 (clusterMd5, md5File)  →  printClusters

Conventions of the embedding.

* A channel is the finite list of the values sent on it, in the order sent.
* A Go map with `[]file` values is the list of its key/value pairs (`GoMap`), the keys
  pairwise distinct.  The order in which `range` visits a map is not fixed by the language;
  it is a parameter (`RangeOrder`) of every function that ranges over a map.
* The file system is read through `getFiles` (a directory listing, possibly with an error)
  and `md5File` (open, read, digest).  The directory tree is the tree of the results of
  `getFiles` (`Listing`); opening, reading and digesting a file are fields of `OS`.
* `int64` arithmetic wraps around (two's complement).
* Text written to standard error is the list of the strings written, one per `Fprintf`;
  text written to standard output is the list of the lines written, one per `Println`.
-/

namespace Finddup

/-! ## Data model -/

/-- The record `file` of the program: path, size in bytes, digest (empty until hashed). -/
structure file where
  name : String
  size : Int
  md5 : String
  deriving DecidableEq

/-- The kinds of directory entry that `os.FileMode` tells apart. -/
inductive FileMode where
  | regular
  | directory
  | symlink
  | namedPipe
  | socket
  | device
  deriving DecidableEq

/-- The part of `os.FileInfo` that the program can see. -/
structure FileInfo where
  Name : String
  Size : Int
  Mode : FileMode
  deriving DecidableEq

/-- The method `IsDir` of `os.FileInfo`. -/
def FileInfo.IsDir (f : FileInfo) : Bool :=
  decide (f.Mode = FileMode.directory)

/-- The method `Mode().IsRegular()` of `os.FileInfo`. -/
def FileInfo.IsRegular (f : FileInfo) : Bool :=
  decide (f.Mode = FileMode.regular)

/-- A directory tree, as the slice of entries that `getFiles` returns for a directory.
Each entry carries its `os.FileInfo` and what `getFiles` returns for the path of that entry
(looked at only when the entry is a directory): the entries read, `sub`, and the error,
`subErr`.  `d.Readdir(-1)` returns the entries read so far together with the error when
reading fails midway, and `os.Open` failing gives no entry and an error; both are trees
`sub`, `some err`. -/
inductive Listing where
  | nil : Listing
  | cons (f : FileInfo) (sub : Listing) (subErr : Option String) (rest : Listing) : Listing
  deriving DecidableEq

/-- A Go map from keys `κ` to `[]file`: its key/value pairs. -/
abbrev GoMap (κ : Type) := List (κ × List file)

/-- The expression `m[k]`: the value stored under `k`, or the nil slice. -/
def GoMap.get {κ : Type} [DecidableEq κ] : GoMap κ → κ → List file
  | [], _ => []
  | (k', v) :: m, k => if k' = k then v else GoMap.get m k

/-- The assignment `m[k] = v`: replaces the value under `k`, or adds the key. -/
def GoMap.set {κ : Type} [DecidableEq κ] : GoMap κ → κ → List file → GoMap κ
  | [], k, v => [(k, v)]
  | (k', v') :: m, k, v => if k' = k then (k, v) :: m else (k', v') :: GoMap.set m k v

/-- The order in which `range` visits the entries of a map: any order, each entry once. -/
structure RangeOrder (κ : Type) where
  visit : GoMap κ → GoMap κ
  perm : ∀ m, (visit m).Perm m

/-- The order of first insertion. -/
def RangeOrder.inOrder (κ : Type) : RangeOrder κ :=
  ⟨fun m => m, fun m => List.Perm.refl m⟩

/-- The reverse of the order of first insertion. -/
def RangeOrder.reversed (κ : Type) : RangeOrder κ :=
  ⟨fun m => m.reverse, fun m => List.reverse_perm m⟩

/-- The operating system and library calls behind `md5File`: `os.Open` (a handle or an
error text), `io.Copy` into the hash (the bytes read or an error text), the MD5 sum and its
base64 encoding. -/
structure OS where
  Open : String → Except String Nat
  Copy : Nat → Except String (List Nat)
  md5Sum : List Nat → List Nat
  base64 : List Nat → String

/-! ## The traversal: `getFiles`, `findFiles`, the loop of `main` -/

/-- What `findFiles` does: the records sent on `files` and the strings written to stderr. -/
structure Traversal where
  files : List file
  stderr : List String
  deriving DecidableEq

/-- The `if err != nil` branch of `findFiles`. -/
def reportDir (root : String) (err : Option String) : List String :=
  match err with
  | some e => ["error reading directory '" ++ root ++ "': " ++ e ++ "\n"]
  | none => []

/-- The loop `for _, f := range finfo` of `findFiles`; the recursive call
`findFiles(root+"/"+f.Name(), files)` is unfolded in place (`findFilesRange_dir` folds it
back). -/
def findFilesRange (root : String) : Listing → Traversal
  | Listing.nil => ⟨[], []⟩
  | Listing.cons f sub subErr rest =>
    let t := findFilesRange root rest
    if f.IsDir then
      let s := findFilesRange (root ++ "/" ++ f.Name) sub
      ⟨s.files ++ t.files, reportDir (root ++ "/" ++ f.Name) subErr ++ s.stderr ++ t.stderr⟩
    else
      ⟨⟨root ++ "/" ++ f.Name, f.Size, ""⟩ :: t.files, t.stderr⟩

/-- The function `findFiles`, given what `getFiles(root)` returned. -/
def findFiles (root : String) (finfo : Listing) (err : Option String) : Traversal :=
  let t := findFilesRange root finfo
  ⟨t.files, reportDir root err ++ t.stderr⟩

/-- The goroutine of `main` that calls `findFiles` for each argument; `getFiles` gives the
listing of each root. -/
def scanRoots (getFiles : String → Listing × Option String) (dirs : List String) : Traversal :=
  dirs.foldl (fun acc dir =>
    let t := findFiles dir (getFiles dir).1 (getFiles dir).2
    ⟨acc.files ++ t.files, acc.stderr ++ t.stderr⟩) ⟨[], []⟩

/-! ## Grouping by size: `findSize` -/

/-- The first loop of `findSize`: `sizes[f.size] = append(sizes[f.size], f)`. -/
def sizeMap (files : List file) : GoMap Int :=
  files.foldl (fun sizes f => sizes.set f.size (sizes.get f.size ++ [f])) []

/-- The function `findSize`: the slices sent on `clusters`. -/
def findSize (ord : RangeOrder Int) (files : List file) : List (List file) :=
  (ord.visit (sizeMap files)).foldl (fun clusters kv => clusters ++ [kv.2]) []

/-! ## Grouping by digest: `md5File`, `clusterMd5`, `findMd5` -/

/-- The function `md5File`. -/
def md5File (os : OS) (name : String) : Except String String :=
  match os.Open name with
  | Except.error err => Except.error err
  | Except.ok file =>
    match os.Copy file with
    | Except.error err => Except.error err
    | Except.ok content => Except.ok (os.base64 (os.md5Sum content))

/-- What `clusterMd5` and `findMd5` do: the clusters returned or sent, and the strings
written to stderr. -/
structure Clustering where
  clusters : List (List file)
  stderr : List String
  deriving DecidableEq

/-- One iteration of the first loop of `clusterMd5`. -/
def hashStep (os : OS) (st : GoMap String × List String) (f : file) :
    GoMap String × List String :=
  match md5File os f.name with
  | Except.ok d =>
    let f : file := { f with md5 := d }
    (st.1.set f.md5 (st.1.get f.md5 ++ [f]), st.2)
  | Except.error err =>
    (st.1, st.2 ++ ["can not hash file '" ++ f.name ++ "': " ++ err ++ "\n"])

/-- The function `clusterMd5`. -/
def clusterMd5 (os : OS) (ord : RangeOrder String) (files : List file) : Clustering :=
  let st := files.foldl (hashStep os) ([], [])
  ⟨(ord.visit st.1).foldl (fun clusters kv => clusters ++ [kv.2]) [], st.2⟩

/-- The function `findMd5`: the slices sent on `hashCl`. -/
def findMd5 (os : OS) (ord : RangeOrder String) (sizeCl : List (List file)) : Clustering :=
  sizeCl.foldl (fun acc cluster =>
    let hashes := clusterMd5 os ord cluster
    ⟨hashes.clusters.foldl (fun sent v => sent ++ [v]) acc.clusters,
      acc.stderr ++ hashes.stderr⟩) ⟨[], []⟩

/-! ## The report: `printClusters` -/

/-- A result of `int64` arithmetic: the representative in `[-2^63, 2^63)`. -/
def int64 (x : Int) : Int :=
  (x + 2 ^ 63) % 2 ^ 64 - 2 ^ 63

/-- What `printClusters` writes: the lines printed on stdout (one per `Println`) and the
strings written to stderr. -/
structure Report where
  stdout : List String
  stderr : List String
  deriving DecidableEq

/-- The loop of `printClusters` from a given state (lines printed so far, `size`); `none`
is the run-time panic of `c[0]` on an empty slice. -/
def printLoop : List (List file) → List String → Int → Option (List String × Int)
  | [], out, size => some (out, size)
  | c :: clusters, out, size =>
    if c.length = 1 then
      printLoop clusters out size
    else
      let out := c.foldl (fun o f => o ++ [f.name]) out ++ [""]
      match c with
      | [] => none
      | c0 :: _ =>
        printLoop clusters out (int64 (size + int64 (c0.size * int64 ((c.length : Int) - 1))))

/-- The function `printClusters`. -/
def printClusters (clusters : List (List file)) : Option Report :=
  match printLoop clusters [] 0 with
  | none => none
  | some (out, size) => some ⟨out, ["duplicated size: " ++ toString size ++ " B\n"]⟩

/-- The pipeline of `main` behind the traversal: `findSize`, `findMd5`, `printClusters`. -/
def report (os : OS) (ordS : RangeOrder Int) (ordH : RangeOrder String)
    (files : List file) : Option Report :=
  printClusters (findMd5 os ordH (findSize ordS files)).clusters

/-! ## Notions used to state the properties -/

/-- The keys of a map. -/
def GoMap.keys {κ : Type} (m : GoMap κ) : List κ :=
  m.map Prod.fst

/-- The loop `for _, f := range l { m[key f] = append(m[key f], f) }` from the map `m`. -/
def groupInto {κ : Type} [DecidableEq κ] (key : file → κ) (m : GoMap κ) (l : List file) :
    GoMap κ :=
  l.foldl (fun m f => m.set (key f) (m.get (key f) ++ [f])) m

/-- The map `m` groups the records `l` by `key`: distinct keys, every key of `l` present,
and under each key the records of `l` with that key, in order, at least one. -/
def Groups {κ : Type} [DecidableEq κ] (key : file → κ) (m : GoMap κ) (l : List file) : Prop :=
  m.keys.Nodup ∧ (∀ f ∈ l, key f ∈ m.keys) ∧
    ∀ k v, (k, v) ∈ m → v ≠ [] ∧ v = l.filter (fun f => decide (key f = k))

/-- The clusters `out` are the partition of the records `l` by `key`. -/
structure PartitionBy {κ : Type} [DecidableEq κ] (key : file → κ) (l : List file)
    (out : List (List file)) : Prop where
  perm : out.flatten.Perm l
  nonempty : ∀ g ∈ out, g ≠ []
  filter : ∀ g ∈ out, ∃ k, g = l.filter (fun f => decide (key f = k))
  together : ∀ a ∈ l, ∀ b ∈ l, key a = key b → ∃ g ∈ out, a ∈ g ∧ b ∈ g
  apart : out.Pairwise (fun g h => ∀ a ∈ g, ∀ b ∈ h, key a ≠ key b)
  length : out.length = (l.map key).dedup.length

/-- The string that `md5File` returns for the file of a record: the digest, or the empty
string next to an error. -/
def digest (os : OS) (f : file) : String :=
  match md5File os f.name with
  | Except.ok d => d
  | Except.error _ => ""

/-- The record `f` after `f.md5, err = md5File(f.name)`. -/
def hashed (os : OS) (f : file) : file :=
  { f with md5 := digest os f }

/-- Whether `md5File` succeeds on the file of a record. -/
def hashable (os : OS) (f : file) : Bool :=
  match md5File os f.name with
  | Except.ok _ => true
  | Except.error _ => false

/-- The diagnostic that `clusterMd5` writes for a record that `md5File` fails on. -/
def hashDiagnostic (os : OS) (f : file) : String :=
  match md5File os f.name with
  | Except.ok _ => ""
  | Except.error err => "can not hash file '" ++ f.name ++ "': " ++ err ++ "\n"

/-! ## The scenario of the specification -/

/-- The system of the scenario: the files `A` and `B` hold `x`, `C` holds `y`, `D` holds
`z`, no other file can be opened; a file handle is the code of the first character of the
path, and the digest of a content is the content as text. -/
def scenarioOS : OS where
  Open := fun name =>
    if name = "A" ∨ name = "B" ∨ name = "C" ∨ name = "D" then
      Except.ok (name.get 0).toNat
    else Except.error "no such file or directory"
  Copy := fun h =>
    if h = 65 ∨ h = 66 then Except.ok [120]
    else if h = 67 then Except.ok [121]
    else if h = 68 then Except.ok [122]
    else Except.error "bad file descriptor"
  md5Sum := fun content => content
  base64 := fun sum => String.mk (sum.map Char.ofNat)

/-- The records of the scenario, as the traversal emits them. -/
def scenarioFiles : List file :=
  [⟨"A", 10, ""⟩, ⟨"B", 10, ""⟩, ⟨"C", 10, ""⟩, ⟨"D", 20, ""⟩]

/-! ## What the report should be -/

/-- The clusters with at least two members, in the order received. -/
def duplicateClusters (clusters : List (List file)) : List (List file) :=
  clusters.filter (fun c => decide (2 ≤ c.length))

/-- The sum, over the clusters with `n ≥ 2` members, of `(n - 1) * s`, where `s = sz c` is
the size of the members of the cluster `c`; the sum is an integer, without wrap-around. -/
def wasted (sz : List file → Int) (clusters : List (List file)) : Int :=
  ((duplicateClusters clusters).map (fun c => ((c.length : Int) - 1) * sz c)).sum

/-- The lines of the report: for each cluster with at least two members, in the order
received, the path of each member and then one empty line. -/
def duplicateLines (clusters : List (List file)) : List String :=
  (duplicateClusters clusters).flatMap (fun c => c.map file.name ++ [""])

/-- The size of the first member of a cluster: `c[0].size`. -/
def firstSize (c : List file) : Int :=
  match c with
  | [] => 0
  | c0 :: _ => c0.size

/-- Three files of 2^62 bytes each in one cluster. -/
def hugeCluster : List (List file) :=
  [[⟨"a", 2 ^ 62, "h"⟩, ⟨"b", 2 ^ 62, "h"⟩, ⟨"c", 2 ^ 62, "h"⟩]]

/-- Two clusters with a duplicate, one cluster with a single member. -/
def sampleClusters : List (List file) :=
  [[⟨"r/a", 10, "x"⟩, ⟨"r/b", 10, "x"⟩], [⟨"r/c", 10, "y"⟩],
    [⟨"r/d", 7, "z"⟩, ⟨"r/e", 7, "z"⟩, ⟨"r/f", 7, "z"⟩]]

/-! ## What the traversal should emit -/

/-- The entries reachable from `root` by recursive descent, each with its path
`root/.../name`: the entries of the listing and, below each directory, the reachable
entries of its listing. -/
inductive Reachable : String → Listing → String → FileInfo → Prop
  | here (root : String) (f : FileInfo) (sub : Listing) (e : Option String) (rest : Listing) :
      Reachable root (Listing.cons f sub e rest) (root ++ "/" ++ f.Name) f
  | inside (root : String) (f : FileInfo) (sub : Listing) (e : Option String) (rest : Listing)
      (p : String) (g : FileInfo) :
      f.IsDir = true → Reachable (root ++ "/" ++ f.Name) sub p g →
      Reachable root (Listing.cons f sub e rest) p g
  | later (root : String) (f : FileInfo) (sub : Listing) (e : Option String) (rest : Listing)
      (p : String) (g : FileInfo) :
      Reachable root rest p g → Reachable root (Listing.cons f sub e rest) p g

/-- The list of the reachable entries with their paths, every directory followed by the
entries below it. -/
def reachableEntries (root : String) : Listing → List (String × FileInfo)
  | Listing.nil => []
  | Listing.cons f sub _ rest =>
    (root ++ "/" ++ f.Name, f) ::
      ((if f.IsDir then reachableEntries (root ++ "/" ++ f.Name) sub else []) ++
        reachableEntries root rest)

/-- The record that the traversal makes of an entry at a path. -/
def recordOf (pg : String × FileInfo) : file :=
  ⟨pg.1, pg.2.Size, ""⟩

/-- Every directory of the tree is readable: `getFiles` returns no error for it. -/
def Listing.readable : Listing → Bool
  | Listing.nil => true
  | Listing.cons f sub e rest =>
    (!f.IsDir || (e.isNone && Listing.readable sub)) && Listing.readable rest

/-- `ReplaceDir root l d old new l'`: in the tree `l` under `root`, `d` is the path of a
directory for which `getFiles` returns `old`, and `l'` is the tree `l` with `new` in the
place of `old`. -/
inductive ReplaceDir : String → Listing → String → Listing × Option String →
    Listing × Option String → Listing → Prop
  | here (root : String) (f : FileInfo) (sub : Listing) (e : Option String) (rest : Listing)
      (new : Listing × Option String) :
      f.IsDir = true →
      ReplaceDir root (Listing.cons f sub e rest) (root ++ "/" ++ f.Name) (sub, e) new
        (Listing.cons f new.1 new.2 rest)
  | inside (root : String) (f : FileInfo) (sub : Listing) (e : Option String) (rest : Listing)
      (d : String) (old new : Listing × Option String) (sub' : Listing) :
      f.IsDir = true → ReplaceDir (root ++ "/" ++ f.Name) sub d old new sub' →
      ReplaceDir root (Listing.cons f sub e rest) d old new (Listing.cons f sub' e rest)
  | later (root : String) (f : FileInfo) (sub : Listing) (e : Option String) (rest : Listing)
      (d : String) (old new : Listing × Option String) (rest' : Listing) :
      ReplaceDir root rest d old new rest' →
      ReplaceDir root (Listing.cons f sub e rest) d old new (Listing.cons f sub e rest')

/-- The names of the entries of a listing. -/
def Listing.names : Listing → List String
  | Listing.nil => []
  | Listing.cons f _ _ rest => f.Name :: Listing.names rest

/-- The names in the tree are those of a file system: no name contains a slash, and no
two entries of one directory have the same name. -/
def Listing.wellNamed : Listing → Bool
  | Listing.nil => true
  | Listing.cons f sub _ rest =>
    decide ('/' ∉ f.Name.data) && decide (f.Name ∉ Listing.names rest) &&
      (!f.IsDir || Listing.wellNamed sub) && Listing.wellNamed rest

/-- The text `t` is empty or begins with a slash. -/
def SlashTail (t : String) : Prop :=
  t = "" ∨ ∃ u : String, t = "/" ++ u

/-- A tree with a directory `d` whose listing fails after one entry was read. -/
def brokenTree : Listing :=
  Listing.cons ⟨"d", 4096, FileMode.directory⟩
    (Listing.cons ⟨"x", 5, FileMode.regular⟩ Listing.nil none Listing.nil)
    (some "input/output error")
    (Listing.cons ⟨"y", 7, FileMode.regular⟩ Listing.nil none Listing.nil)

/-- The tree `brokenTree` with `d` empty and readable. -/
def emptiedTree : Listing :=
  Listing.cons ⟨"d", 4096, FileMode.directory⟩ Listing.nil none
    (Listing.cons ⟨"y", 7, FileMode.regular⟩ Listing.nil none Listing.nil)

/-- A readable tree with a regular file, a symbolic link and a directory holding a named
pipe. -/
def mixedTree : Listing :=
  Listing.cons ⟨"a", 3, FileMode.regular⟩ Listing.nil none
    (Listing.cons ⟨"l", 1, FileMode.symlink⟩ Listing.nil none
      (Listing.cons ⟨"s", 4096, FileMode.directory⟩
        (Listing.cons ⟨"p", 0, FileMode.namedPipe⟩ Listing.nil none Listing.nil) none
        Listing.nil))

/-- A file system in which every root holds the one regular file `f`. -/
def oneFile : String → Listing × Option String :=
  fun _ => (Listing.cons ⟨"f", 1, FileMode.regular⟩ Listing.nil none Listing.nil, none)

/-! # Lemmas -/

/-! ## Go maps: lookup, assignment, grouping -/

section MapLemmas

variable {κ : Type} [DecidableEq κ]

theorem GoMap.get_of_not_mem_keys (m : GoMap κ) (k : κ) (h : k ∉ m.keys) : m.get k = [] := by
  induction m with
  | nil => rfl
  | cons p m ih =>
    obtain ⟨k', v'⟩ := p
    simp only [GoMap.keys, List.map_cons, List.mem_cons, not_or] at h
    have hk : ¬ k' = k := fun e => h.1 e.symm
    simp only [GoMap.get, hk, if_false]
    exact ih h.2

theorem GoMap.get_of_mem (m : GoMap κ) (k : κ) (v : List file) (hn : m.keys.Nodup)
    (h : (k, v) ∈ m) : m.get k = v := by
  induction m with
  | nil => cases h
  | cons p m ih =>
    obtain ⟨k', v'⟩ := p
    simp only [GoMap.keys, List.map_cons, List.nodup_cons] at hn
    rcases List.mem_cons.1 h with e | h'
    · cases e
      simp [GoMap.get]
    · have hk : ¬ k' = k := by
        intro e
        subst e
        exact hn.1 (List.mem_map.2 ⟨(k', v), h', rfl⟩)
      simp only [GoMap.get, hk, if_false]
      exact ih hn.2 h'

theorem GoMap.keys_set (m : GoMap κ) (k : κ) (v : List file) :
    (m.set k v).keys = if k ∈ m.keys then m.keys else m.keys ++ [k] := by
  induction m with
  | nil => simp [GoMap.set, GoMap.keys]
  | cons p m ih =>
    obtain ⟨k', v'⟩ := p
    by_cases hk : k' = k
    · subst hk
      simp [GoMap.set, GoMap.keys]
    · have hk' : ¬ k = k' := fun e => hk e.symm
      simp only [GoMap.keys] at ih
      simp only [GoMap.set, hk, if_false, GoMap.keys, List.map_cons, List.mem_cons, hk',
        false_or, ih]
      split <;> simp

theorem GoMap.keys_set_nodup (m : GoMap κ) (k : κ) (v : List file) (hn : m.keys.Nodup) :
    (m.set k v).keys.Nodup := by
  rw [GoMap.keys_set]
  split
  · exact hn
  · rename_i h
    exact List.Nodup.append hn (List.nodup_singleton k) (by simpa using h)

theorem GoMap.mem_keys_set (m : GoMap κ) (k k' : κ) (v : List file) :
    k' ∈ (m.set k v).keys ↔ k' = k ∨ k' ∈ m.keys := by
  rw [GoMap.keys_set]
  split
  · rename_i h
    constructor
    · exact Or.inr
    · rintro (e | h')
      · exact e ▸ h
      · exact h'
  · simp [or_comm]

theorem GoMap.mem_set (m : GoMap κ) (k : κ) (v : List file) (hn : m.keys.Nodup)
    (k' : κ) (v' : List file) :
    (k', v') ∈ m.set k v ↔ (k' = k ∧ v' = v) ∨ (k' ≠ k ∧ (k', v') ∈ m) := by
  induction m with
  | nil => simp [GoMap.set]
  | cons p m ih =>
    obtain ⟨k₀, v₀⟩ := p
    simp only [GoMap.keys, List.map_cons, List.nodup_cons] at hn
    by_cases hk : k₀ = k
    · subst hk
      simp only [GoMap.set, if_true, List.mem_cons, Prod.mk.injEq]
      constructor
      · rintro (⟨e1, e2⟩ | h)
        · exact Or.inl ⟨e1, e2⟩
        · refine Or.inr ⟨?_, Or.inr h⟩
          intro e
          subst e
          exact hn.1 (List.mem_map.2 ⟨(k', v'), h, rfl⟩)
      · rintro (⟨e1, e2⟩ | ⟨hne, ⟨e1, _⟩ | h⟩)
        · exact Or.inl ⟨e1, e2⟩
        · exact absurd e1 hne
        · exact Or.inr h
    · simp only [GoMap.set, hk, if_false, List.mem_cons, Prod.mk.injEq, ih hn.2]
      constructor
      · rintro (⟨e1, e2⟩ | ⟨e1, e2⟩ | ⟨hne, h⟩)
        · exact Or.inr ⟨fun e => hk (e1 ▸ e), Or.inl ⟨e1, e2⟩⟩
        · exact Or.inl ⟨e1, e2⟩
        · exact Or.inr ⟨hne, Or.inr h⟩
      · rintro (⟨e1, e2⟩ | ⟨hne, ⟨e1, e2⟩ | h⟩)
        · exact Or.inr (Or.inl ⟨e1, e2⟩)
        · exact Or.inl ⟨e1, e2⟩
        · exact Or.inr (Or.inr ⟨hne, h⟩)

theorem GoMap.values_set_perm (m : GoMap κ) (k : κ) (f : file) :
    ((m.set k (m.get k ++ [f])).map Prod.snd).flatten.Perm
      ((m.map Prod.snd).flatten ++ [f]) := by
  induction m with
  | nil => simp [GoMap.set, GoMap.get]
  | cons p m ih =>
    obtain ⟨k₀, v₀⟩ := p
    by_cases hk : k₀ = k
    · subst hk
      simp only [GoMap.set, GoMap.get, if_true, List.map_cons, List.flatten_cons,
        List.append_assoc]
      exact List.Perm.append_left v₀ List.perm_append_comm
    · simp only [GoMap.set, GoMap.get, hk, if_false, List.map_cons, List.flatten_cons,
        List.append_assoc]
      exact List.Perm.append_left v₀ ih

theorem groups_nil (key : file → κ) : Groups key [] [] := by
  refine ⟨List.nodup_nil, ?_, ?_⟩
  · intro f hf
    cases hf
  · intro k v h
    cases h

theorem Groups.step {key : file → κ} {m : GoMap κ} {l : List file} (h : Groups key m l)
    (f : file) : Groups key (m.set (key f) (m.get (key f) ++ [f])) (l ++ [f]) := by
  obtain ⟨hn, hcov, hval⟩ := h
  refine ⟨GoMap.keys_set_nodup m _ _ hn, ?_, ?_⟩
  · intro g hg
    rw [GoMap.mem_keys_set]
    rcases List.mem_append.1 hg with hg | hg
    · exact Or.inr (hcov g hg)
    · rw [List.mem_singleton.1 hg]
      exact Or.inl rfl
  · intro k v hkv
    rw [GoMap.mem_set m _ _ hn] at hkv
    rcases hkv with ⟨ek, ev⟩ | ⟨hne, hmem⟩
    · subst ek
      subst ev
      refine ⟨by simp, ?_⟩
      by_cases hin : key f ∈ m.keys
      · obtain ⟨p, hp, hpk⟩ := List.mem_map.1 hin
        obtain ⟨k₀, v₀⟩ := p
        simp only at hpk
        subst hpk
        rw [GoMap.get_of_mem m _ v₀ hn hp, (hval _ v₀ hp).2]
        simp [List.filter_append]
      · rw [GoMap.get_of_not_mem_keys m _ hin]
        have hnone : l.filter (fun g => decide (key g = key f)) = [] := by
          rw [List.filter_eq_nil_iff]
          intro g hg
          simp only [decide_eq_true_eq]
          intro e
          exact hin (e ▸ hcov g hg)
        simp [List.filter_append, hnone]
    · obtain ⟨hv, hfil⟩ := hval k v hmem
      refine ⟨hv, ?_⟩
      have hkf : ¬ key f = k := fun e => hne e.symm
      rw [hfil]
      simp [List.filter_append, hkf]

theorem groupInto_groups (key : file → κ) (rest : List file) :
    ∀ (m : GoMap κ) (l : List file), Groups key m l →
      Groups key (groupInto key m rest) (l ++ rest) := by
  induction rest with
  | nil =>
    intro m l h
    simpa [groupInto] using h
  | cons f rest ih =>
    intro m l h
    have h' := ih _ _ (h.step f)
    simpa [groupInto, List.append_assoc] using h'

theorem groupInto_perm (key : file → κ) (rest : List file) :
    ∀ (m : GoMap κ),
      ((groupInto key m rest).map Prod.snd).flatten.Perm ((m.map Prod.snd).flatten ++ rest) := by
  induction rest with
  | nil =>
    intro m
    simp [groupInto]
  | cons f rest ih =>
    intro m
    have h1 := ih (m.set (key f) (m.get (key f) ++ [f]))
    have h2 := GoMap.values_set_perm m (key f) f
    have h3 := (List.Perm.append_right rest h2)
    simpa [groupInto, List.append_assoc] using h1.trans h3

/-- The map built from the empty map groups the records by `key`. -/
theorem groupInto_nil_groups (key : file → κ) (l : List file) :
    Groups key (groupInto key [] l) l := by
  simpa using groupInto_groups key l [] [] (groups_nil key)

end MapLemmas

/-- Sending the values of the visited entries one by one gives the list of the values. -/
theorem foldl_send {κ : Type} (m : GoMap κ) (acc : List (List file)) :
    m.foldl (fun clusters kv => clusters ++ [kv.2]) acc = acc ++ m.map Prod.snd := by
  induction m generalizing acc with
  | nil => simp
  | cons p m ih => simp [ih]

section PartitionLemmas

variable {κ : Type} [DecidableEq κ]

theorem Groups.keys_perm {key : file → κ} {m : GoMap κ} {l : List file} (h : Groups key m l) :
    m.keys.Perm (l.map key).dedup := by
  obtain ⟨hn, hcov, hval⟩ := h
  rw [List.perm_ext_iff_of_nodup hn (List.nodup_dedup _)]
  intro k
  rw [List.mem_dedup]
  constructor
  · intro hk
    obtain ⟨p, hp, hpk⟩ := List.mem_map.1 hk
    obtain ⟨k₀, v⟩ := p
    simp only at hpk
    subst hpk
    obtain ⟨hv, hfil⟩ := hval _ v hp
    obtain ⟨f, hf⟩ := List.exists_mem_of_ne_nil v hv
    rw [hfil, List.mem_filter] at hf
    exact List.mem_map.2 ⟨f, hf.1, by simpa using hf.2⟩
  · intro hk
    obtain ⟨f, hf, hfk⟩ := List.mem_map.1 hk
    exact hfk ▸ hcov f hf

theorem Groups.partition {key : file → κ} {m m' : GoMap κ} {l : List file}
    (h : Groups key m l) (hflat : (m.map Prod.snd).flatten.Perm l) (hperm : m'.Perm m) :
    PartitionBy key l (m'.map Prod.snd) := by
  have hkeys := h.keys_perm
  obtain ⟨hn, hcov, hval⟩ := h
  have hval' : ∀ k v, (k, v) ∈ m' → v ≠ [] ∧ v = l.filter (fun f => decide (key f = k)) :=
    fun k v hkv => hval k v (hperm.mem_iff.1 hkv)
  refine ⟨?_, ?_, ?_, ?_, ?_, ?_⟩
  · exact ((hperm.map Prod.snd).flatten).trans hflat
  · intro g hg
    obtain ⟨p, hp, rfl⟩ := List.mem_map.1 hg
    exact (hval' p.1 p.2 hp).1
  · intro g hg
    obtain ⟨p, hp, rfl⟩ := List.mem_map.1 hg
    exact ⟨p.1, (hval' p.1 p.2 hp).2⟩
  · intro a ha b hb hab
    obtain ⟨p, hp, hpk⟩ := List.mem_map.1 (hcov a ha)
    have hp' : p ∈ m' := hperm.mem_iff.2 hp
    refine ⟨p.2, List.mem_map.2 ⟨p, hp', rfl⟩, ?_, ?_⟩
    · rw [(hval p.1 p.2 hp).2, List.mem_filter]
      exact ⟨ha, by simpa using hpk.symm⟩
    · rw [(hval p.1 p.2 hp).2, List.mem_filter]
      exact ⟨hb, by simpa using hab ▸ hpk.symm⟩
  · rw [List.pairwise_map]
    have hpk : m'.Pairwise (fun p q => p.1 ≠ q.1) := by
      have : (m'.map Prod.fst).Nodup := ((hperm.map Prod.fst).nodup_iff).2 hn
      exact List.pairwise_map.1 this
    refine hpk.imp_of_mem ?_
    intro p q hp hq hne a ha b hb hab
    rw [(hval' p.1 p.2 hp).2, List.mem_filter] at ha
    rw [(hval' q.1 q.2 hq).2, List.mem_filter] at hb
    have e1 : key a = p.1 := by simpa using ha.2
    have e2 : key b = q.1 := by simpa using hb.2
    exact hne (e1 ▸ e2 ▸ hab)
  · rw [List.length_map, hperm.length_eq, ← hkeys.length_eq, GoMap.keys, List.length_map]

/-- Members of one cluster of a partition have the same key. -/
theorem PartitionBy.same_key {key : file → κ} {l : List file} {out : List (List file)}
    (h : PartitionBy key l out) {g : List file} (hg : g ∈ out) {a b : file}
    (ha : a ∈ g) (hb : b ∈ g) : key a = key b := by
  obtain ⟨k, hk⟩ := h.filter g hg
  rw [hk, List.mem_filter] at ha hb
  have e1 : key a = k := by simpa using ha.2
  have e2 : key b = k := by simpa using hb.2
  rw [e1, e2]

/-- Members of the clusters of a partition are records of the input. -/
theorem PartitionBy.mem_input {key : file → κ} {l : List file} {out : List (List file)}
    (h : PartitionBy key l out) {g : List file} (hg : g ∈ out) {a : file}
    (ha : a ∈ g) : a ∈ l :=
  h.perm.mem_iff.1 (List.mem_flatten.2 ⟨g, hg, ha⟩)

end PartitionLemmas

theorem sizeMap_eq (files : List file) : sizeMap files = groupInto file.size [] files := rfl

theorem findSize_eq (ord : RangeOrder Int) (files : List file) :
    findSize ord files = (ord.visit (sizeMap files)).map Prod.snd := by
  simp [findSize, foldl_send]

theorem findSize_partitionBy (ord : RangeOrder Int) (files : List file) :
    PartitionBy file.size files (findSize ord files) := by
  rw [findSize_eq, sizeMap_eq]
  refine (groupInto_nil_groups file.size files).partition ?_ (ord.perm _)
  simpa using groupInto_perm file.size files []

/-! ## `clusterMd5` and `findMd5` -/

theorem hashStep_ok (os : OS) (st : GoMap String × List String) (f : file)
    (h : hashable os f = true) :
    hashStep os st f =
      (st.1.set (hashed os f).md5 (st.1.get (hashed os f).md5 ++ [hashed os f]), st.2) := by
  unfold hashable at h
  unfold hashStep hashed digest
  split <;> simp_all

theorem hashStep_error (os : OS) (st : GoMap String × List String) (f : file)
    (h : hashable os f = false) :
    hashStep os st f = (st.1, st.2 ++ [hashDiagnostic os f]) := by
  unfold hashable at h
  unfold hashStep hashDiagnostic
  split <;> simp_all

theorem foldl_hashStep (os : OS) (files : List file) :
    ∀ st : GoMap String × List String,
      files.foldl (hashStep os) st =
        (groupInto file.md5 st.1 ((files.filter (hashable os)).map (hashed os)),
          st.2 ++ (files.filter (fun f => !hashable os f)).map (hashDiagnostic os)) := by
  induction files with
  | nil =>
    intro st
    simp [groupInto]
  | cons f files ih =>
    intro st
    cases h : hashable os f
    · rw [List.foldl_cons, hashStep_error os st f h, ih]
      simp [h]
    · rw [List.foldl_cons, hashStep_ok os st f h, ih]
      simp [h, groupInto]

theorem clusterMd5_clusters (os : OS) (ord : RangeOrder String) (files : List file) :
    (clusterMd5 os ord files).clusters =
      (ord.visit (groupInto file.md5 [] ((files.filter (hashable os)).map (hashed os)))).map
        Prod.snd := by
  simp [clusterMd5, foldl_hashStep, foldl_send]

theorem clusterMd5_stderr (os : OS) (ord : RangeOrder String) (files : List file) :
    (clusterMd5 os ord files).stderr =
      (files.filter (fun f => !hashable os f)).map (hashDiagnostic os) := by
  simp [clusterMd5, foldl_hashStep]

theorem clusterMd5_partitionBy (os : OS) (ord : RangeOrder String) (files : List file) :
    PartitionBy file.md5 ((files.filter (hashable os)).map (hashed os))
      (clusterMd5 os ord files).clusters := by
  rw [clusterMd5_clusters]
  refine (groupInto_nil_groups file.md5 _).partition ?_ (ord.perm _)
  simpa using groupInto_perm file.md5 ((files.filter (hashable os)).map (hashed os)) []

theorem hashable_iff (os : OS) (f : file) :
    hashable os f = true ↔ ∃ d, md5File os f.name = Except.ok d := by
  unfold hashable
  split
  · rename_i d h
    simp [h]
  · rename_i e h
    simp [h]


theorem md5File_eq_digest (os : OS) (f : file) (h : hashable os f = true) :
    md5File os f.name = Except.ok (digest os f) := by
  obtain ⟨d, hd⟩ := (hashable_iff os f).1 h
  simp [digest, hd]

theorem filter_hashable_of_all (os : OS) (files : List file)
    (hok : ∀ f ∈ files, ∃ d, md5File os f.name = Except.ok d) :
    files.filter (hashable os) = files := by
  rw [List.filter_eq_self]
  intro f hf
  exact (hashable_iff os f).2 (hok f hf)



/-- Members of the clusters of `clusterMd5` are hashed records of the input that
`md5File` succeeded on. -/
theorem clusterMd5_mem (os : OS) (ord : RangeOrder String) (files : List file)
    {g : List file} (hg : g ∈ (clusterMd5 os ord files).clusters) {a : file} (ha : a ∈ g) :
    ∃ f ∈ files, hashable os f = true ∧ a = hashed os f := by
  have h := (clusterMd5_partitionBy os ord files).mem_input hg ha
  obtain ⟨f, hf, rfl⟩ := List.mem_map.1 h
  rw [List.mem_filter] at hf
  exact ⟨f, hf.1, hf.2, rfl⟩

theorem foldl_sent (vs : List (List file)) (acc : List (List file)) :
    vs.foldl (fun sent v => sent ++ [v]) acc = acc ++ vs := by
  induction vs generalizing acc with
  | nil => simp
  | cons v vs ih => simp [ih]

theorem findMd5_foldl (os : OS) (ord : RangeOrder String) (sizeCl : List (List file)) :
    ∀ acc : Clustering,
      sizeCl.foldl (fun acc cluster =>
        (⟨(clusterMd5 os ord cluster).clusters.foldl (fun sent v => sent ++ [v]) acc.clusters,
          acc.stderr ++ (clusterMd5 os ord cluster).stderr⟩ : Clustering)) acc =
      ⟨acc.clusters ++ sizeCl.flatMap (fun c => (clusterMd5 os ord c).clusters),
        acc.stderr ++ sizeCl.flatMap (fun c => (clusterMd5 os ord c).stderr)⟩ := by
  induction sizeCl with
  | nil =>
    intro acc
    simp
  | cons c sizeCl ih =>
    intro acc
    rw [List.foldl_cons, ih]
    simp [foldl_sent, List.flatMap_cons]

theorem findMd5_clusters (os : OS) (ord : RangeOrder String) (sizeCl : List (List file)) :
    (findMd5 os ord sizeCl).clusters =
      sizeCl.flatMap (fun c => (clusterMd5 os ord c).clusters) := by
  unfold findMd5
  rw [findMd5_foldl]
  simp

theorem findMd5_stderr (os : OS) (ord : RangeOrder String) (sizeCl : List (List file)) :
    (findMd5 os ord sizeCl).stderr =
      sizeCl.flatMap (fun c => (clusterMd5 os ord c).stderr) := by
  unfold findMd5
  rw [findMd5_foldl]
  simp

/-! ## The pipeline `findSize`, `findMd5` -/

theorem flatten_flatMap_perm (F : List file → List (List file)) (H : List file → List file) :
    ∀ S : List (List file), (∀ c ∈ S, (F c).flatten.Perm (H c)) →
      (S.flatMap F).flatten.Perm (S.flatMap H) := by
  intro S
  induction S with
  | nil =>
    intro _
    simp
  | cons c S ih =>
    intro h
    simp only [List.flatMap_cons, List.flatten_append]
    exact List.Perm.append (h c (List.mem_cons_self c S))
      (ih (fun c' hc' => h c' (List.mem_cons_of_mem c hc')))

theorem flatMap_map_eq (H : file → file) (S : List (List file)) :
    S.flatMap (fun c => c.map H) = S.flatten.map H := by
  induction S with
  | nil => rfl
  | cons c S ih => simp [List.flatMap_cons, ih]

/-- On a size cluster whose files can all be hashed, `clusterMd5` partitions by digest. -/
theorem clusterMd5_partitionBy_of_all (os : OS) (ord : RangeOrder String) (c : List file)
    (hok : ∀ f ∈ c, ∃ d, md5File os f.name = Except.ok d) :
    PartitionBy file.md5 (c.map (hashed os)) (clusterMd5 os ord c).clusters := by
  have h := clusterMd5_partitionBy os ord c
  rwa [filter_hashable_of_all os c hok] at h

theorem scenario_sizeMap :
    sizeMap scenarioFiles =
      [(10, [⟨"A", 10, ""⟩, ⟨"B", 10, ""⟩, ⟨"C", 10, ""⟩]), (20, [⟨"D", 20, ""⟩])] := by
  decide

theorem scenario_hashable :
    ∀ f ∈ scenarioFiles, ∃ d, md5File scenarioOS f.name = Except.ok d := by
  intro f hf
  have h : ∀ g ∈ scenarioFiles, hashable scenarioOS g = true := by decide
  exact (hashable_iff scenarioOS f).1 (h f hf)

theorem scenario_hashMap_10 :
    groupInto file.md5 [] ((([⟨"A", 10, ""⟩, ⟨"B", 10, ""⟩, ⟨"C", 10, ""⟩] : List file).filter
      (hashable scenarioOS)).map (hashed scenarioOS)) =
      [("x", [⟨"A", 10, "x"⟩, ⟨"B", 10, "x"⟩]), ("y", [⟨"C", 10, "y"⟩])] := by
  decide

theorem scenario_hashMap_20 :
    groupInto file.md5 [] ((([⟨"D", 20, ""⟩] : List file).filter
      (hashable scenarioOS)).map (hashed scenarioOS)) =
      [("z", [⟨"D", 20, "z"⟩])] := by
  decide

theorem scenario_clusters (ordS : RangeOrder Int) (ordH : RangeOrder String) :
    (findMd5 scenarioOS ordH (findSize ordS scenarioFiles)).clusters.Perm
      [[⟨"A", 10, "x"⟩, ⟨"B", 10, "x"⟩], [⟨"C", 10, "y"⟩], [⟨"D", 20, "z"⟩]] := by
  rw [findMd5_clusters, findSize_eq, scenario_sizeMap]
  have h1 := ((ordS.perm
    [(10, [⟨"A", 10, ""⟩, ⟨"B", 10, ""⟩, ⟨"C", 10, ""⟩]), (20, [⟨"D", 20, ""⟩])]).map
      Prod.snd).flatMap_right (fun c => (clusterMd5 scenarioOS ordH c).clusters)
  refine h1.trans ?_
  simp only [List.map_cons, List.map_nil, List.flatMap_cons, List.flatMap_nil,
    List.append_nil, clusterMd5_clusters, scenario_hashMap_10, scenario_hashMap_20]
  have h2 := (ordH.perm [("x", [⟨"A", 10, "x"⟩, ⟨"B", 10, "x"⟩]), ("y", [⟨"C", 10, "y"⟩])]).map
    Prod.snd
  have h3 := (ordH.perm [("z", [⟨"D", 20, "z"⟩])]).map Prod.snd
  exact List.Perm.append h2 h3

/-! ## `int64` and `printClusters` -/

theorem int64_modEq (x : Int) : Int.ModEq (2 ^ 64) (int64 x) x := by
  unfold int64
  have h : Int.ModEq (2 ^ 64) ((x + 2 ^ 63) % 2 ^ 64) (x + 2 ^ 63) := Int.mod_modEq _ _
  have h2 := h.sub_right (2 ^ 63)
  simpa using h2

theorem int64_congr {x y : Int} (h : Int.ModEq (2 ^ 64) x y) : int64 x = int64 y := by
  unfold int64
  have h2 : Int.ModEq (2 ^ 64) (x + 2 ^ 63) (y + 2 ^ 63) := h.add_right _
  rw [h2.eq]

theorem int64_idem (x : Int) : int64 (int64 x) = int64 x :=
  int64_congr (int64_modEq x)

theorem int64_of_range (x : Int) (h1 : -2 ^ 63 ≤ x) (h2 : x < 2 ^ 63) : int64 x = x := by
  unfold int64
  rw [Int.emod_eq_of_lt (by omega) (by omega)]
  omega


theorem int64_step (size s n : Int) :
    int64 (size + int64 (s * int64 n)) = int64 (size + s * n) := by
  apply int64_congr
  exact Int.ModEq.add_left size
    ((int64_modEq _).trans (Int.ModEq.mul_left s (int64_modEq n)))

theorem foldl_println (c : List file) (out : List String) :
    c.foldl (fun o f => o ++ [f.name]) out = out ++ c.map file.name := by
  induction c generalizing out with
  | nil => simp
  | cons f c ih => simp [ih]

theorem duplicateClusters_cons_single (c : List file) (cs : List (List file))
    (h : c.length = 1) : duplicateClusters (c :: cs) = duplicateClusters cs := by
  simp [duplicateClusters, h]

theorem duplicateClusters_cons_dup (c : List file) (cs : List (List file))
    (h : 2 ≤ c.length) : duplicateClusters (c :: cs) = c :: duplicateClusters cs := by
  simp [duplicateClusters, h]

/-- The loop of `printClusters` on non-empty clusters, from a state whose `size` is an
`int64` value: it does not panic, appends the lines of the duplicate clusters and adds the
wasted size, wrapping around. -/
theorem printLoop_eq (cs : List (List file)) :
    (∀ c ∈ cs, c ≠ []) → ∀ (out : List String) (size : Int), int64 size = size →
      printLoop cs out size =
        some (out ++ duplicateLines cs, int64 (size + wasted firstSize cs)) := by
  induction cs with
  | nil =>
    intro _ out size hsize
    simp [printLoop, duplicateLines, wasted, duplicateClusters, hsize]
  | cons c cs ih =>
    intro hne out size hsize
    have hc : c ≠ [] := hne c (List.mem_cons_self c cs)
    have hcs : ∀ c' ∈ cs, c' ≠ [] := fun c' h' => hne c' (List.mem_cons_of_mem c h')
    by_cases h1 : c.length = 1
    · rw [printLoop, if_pos h1, ih hcs out size hsize]
      simp [duplicateLines, wasted, duplicateClusters_cons_single c cs h1]
    · have h2 : 2 ≤ c.length := by
        have : c.length ≠ 0 := fun h0 => hc (List.length_eq_zero.1 h0)
        omega
      cases c with
      | nil => exact absurd rfl hc
      | cons c0 c' =>
        rw [printLoop, if_neg h1]
        simp only []
        rw [ih hcs _ _ (int64_idem _), foldl_println]
        have hw : wasted firstSize ((c0 :: c') :: cs) =
            (((c0 :: c').length : Int) - 1) * c0.size + wasted firstSize cs := by
          simp [wasted, duplicateClusters_cons_dup _ cs h2, firstSize]
        have hl : duplicateLines ((c0 :: c') :: cs) =
            ((c0 :: c').map file.name ++ [""]) ++ duplicateLines cs := by
          simp [duplicateLines, duplicateClusters_cons_dup _ cs h2, List.flatMap_cons]
        rw [hw, hl, int64_step]
        congr 2
        · simp [List.append_assoc]
        · apply int64_congr
          have e : size + c0.size * (((c0 :: c').length : Int) - 1) + wasted firstSize cs =
              size + ((((c0 :: c').length : Int) - 1) * c0.size + wasted firstSize cs) := by
            ring
          rw [← e]
          exact Int.ModEq.add_right _ (int64_modEq _)

theorem printClusters_eq (cs : List (List file)) (hne : ∀ c ∈ cs, c ≠ []) :
    printClusters cs = some ⟨duplicateLines cs,
      ["duplicated size: " ++ toString (int64 (wasted firstSize cs)) ++ " B\n"]⟩ := by
  unfold printClusters
  rw [printLoop_eq cs hne [] 0 (by decide)]
  simp

theorem wasted_congr (sz sz' : List file → Int) (cs : List (List file))
    (h : ∀ c ∈ cs, sz c = sz' c) : wasted sz cs = wasted sz' cs := by
  unfold wasted
  congr 1
  apply List.map_congr_left
  intro c hc
  have hc' : c ∈ cs := (List.mem_filter.1 hc).1
  rw [h c hc']

theorem firstSize_eq (c : List file) (s : Int) (hne : c ≠ []) (h : ∀ f ∈ c, f.size = s) :
    firstSize c = s := by
  cases c with
  | nil => exact absurd rfl hne
  | cons c0 c' => exact h c0 (List.mem_cons_self c0 c')

/-! ## The traversal -/

theorem findFilesRange_dir (root : String) (f : FileInfo) (sub : Listing) (e : Option String)
    (rest : Listing) (h : f.IsDir = true) :
    findFilesRange root (Listing.cons f sub e rest) =
      ⟨(findFiles (root ++ "/" ++ f.Name) sub e).files ++ (findFilesRange root rest).files,
        (findFiles (root ++ "/" ++ f.Name) sub e).stderr ++ (findFilesRange root rest).stderr⟩ := by
  simp [findFilesRange, findFiles, h]

theorem findFilesRange_file (root : String) (f : FileInfo) (sub : Listing) (e : Option String)
    (rest : Listing) (h : f.IsDir = false) :
    findFilesRange root (Listing.cons f sub e rest) =
      ⟨⟨root ++ "/" ++ f.Name, f.Size, ""⟩ :: (findFilesRange root rest).files,
        (findFilesRange root rest).stderr⟩ := by
  simp [findFilesRange, h]

theorem findFilesRange_files (l : Listing) :
    ∀ root : String, (findFilesRange root l).files =
      ((reachableEntries root l).filter (fun pg => !pg.2.IsDir)).map recordOf := by
  induction l with
  | nil =>
    intro root
    rfl
  | cons f sub e rest ihs ihr =>
    intro root
    cases h : f.IsDir
    · rw [findFilesRange_file root f sub e rest h]
      simp [reachableEntries, h, ihr root, recordOf]
    · rw [findFilesRange_dir root f sub e rest h]
      simp [reachableEntries, h, ihr root, ihs, findFiles]

theorem mem_reachableEntries (l : Listing) :
    ∀ (root p : String) (g : FileInfo),
      (p, g) ∈ reachableEntries root l ↔ Reachable root l p g := by
  induction l with
  | nil =>
    intro root p g
    constructor
    · intro h
      cases h
    · intro h
      cases h
  | cons f sub e rest ihs ihr =>
    intro root p g
    constructor
    · intro h
      simp only [reachableEntries, List.mem_cons, List.mem_append, Prod.mk.injEq] at h
      rcases h with ⟨rfl, rfl⟩ | h | h
      · exact Reachable.here root g sub e rest
      · cases hd : f.IsDir
        · simp [hd] at h
        · rw [hd] at h
          exact Reachable.inside root f sub e rest p g hd ((ihs _ p g).1 h)
      · exact Reachable.later root f sub e rest p g ((ihr root p g).1 h)
    · intro h
      simp only [reachableEntries, List.mem_cons, List.mem_append, Prod.mk.injEq]
      cases h with
      | here => exact Or.inl ⟨rfl, rfl⟩
      | inside _ _ _ _ _ _ _ hd hr =>
        refine Or.inr (Or.inl ?_)
        rw [hd]
        exact (ihs _ p g).2 hr
      | later _ _ _ _ _ _ _ hr => exact Or.inr (Or.inr ((ihr root p g).2 hr))

theorem findFilesRange_stderr_readable (l : Listing) :
    ∀ root : String, l.readable = true → (findFilesRange root l).stderr = [] := by
  induction l with
  | nil =>
    intro root _
    rfl
  | cons f sub e rest ihs ihr =>
    intro root h
    simp only [Listing.readable, Bool.and_eq_true, Bool.or_eq_true, Bool.not_eq_true',
      Option.isNone_iff_eq_none] at h
    cases hd : f.IsDir
    · rw [findFilesRange_file root f sub e rest hd]
      exact ihr root h.2
    · rw [findFilesRange_dir root f sub e rest hd]
      rcases h.1 with h1 | ⟨h1, h2⟩
      · rw [hd] at h1
        cases h1
      · subst h1
        simp [findFiles, reportDir, ihs _ h2, ihr root h.2]

/-- Replacing what `getFiles` returns for one directory changes the output of the loop of
`findFiles` only in the block of that directory. -/
theorem ReplaceDir.decompose {root : String} {l : Listing} {d : String}
    {old new : Listing × Option String} {l' : Listing} (h : ReplaceDir root l d old new l') :
    ∃ pf qf ps qs,
      (findFilesRange root l).files = pf ++ (findFiles d old.1 old.2).files ++ qf ∧
      (findFilesRange root l').files = pf ++ (findFiles d new.1 new.2).files ++ qf ∧
      (findFilesRange root l).stderr = ps ++ (findFiles d old.1 old.2).stderr ++ qs ∧
      (findFilesRange root l').stderr = ps ++ (findFiles d new.1 new.2).stderr ++ qs := by
  induction h with
  | here root f sub e rest new hd =>
    refine ⟨[], (findFilesRange root rest).files, [], (findFilesRange root rest).stderr, ?_⟩
    rw [findFilesRange_dir root f sub e rest hd, findFilesRange_dir root f new.1 new.2 rest hd]
    simp
  | inside root f sub e rest d old new sub' hd _ ih =>
    obtain ⟨pf, qf, ps, qs, h1, h2, h3, h4⟩ := ih
    refine ⟨pf, qf ++ (findFilesRange root rest).files,
      reportDir (root ++ "/" ++ f.Name) e ++ ps, qs ++ (findFilesRange root rest).stderr, ?_⟩
    rw [findFilesRange_dir root f sub e rest hd, findFilesRange_dir root f sub' e rest hd]
    simp only [findFiles] at h1 h2 h3 h4 ⊢
    simp only [h1, h2, h3, h4, List.append_assoc, and_self]
  | later root f sub e rest d old new rest' _ ih =>
    obtain ⟨pf, qf, ps, qs, h1, h2, h3, h4⟩ := ih
    cases hd : f.IsDir
    · refine ⟨⟨root ++ "/" ++ f.Name, f.Size, ""⟩ :: pf, qf, ps, qs, ?_⟩
      rw [findFilesRange_file root f sub e rest hd, findFilesRange_file root f sub e rest' hd]
      simp only [h1, h2, h3, h4, List.cons_append, and_self]
    · refine ⟨(findFiles (root ++ "/" ++ f.Name) sub e).files ++ pf, qf,
        (findFiles (root ++ "/" ++ f.Name) sub e).stderr ++ ps, qs, ?_⟩
      rw [findFilesRange_dir root f sub e rest hd, findFilesRange_dir root f sub e rest' hd]
      simp only [h1, h2, h3, h4, List.append_assoc, and_self]

/-! ## Paths of the traversal -/

theorem name_cancel_list (a : List Char) :
    ∀ (b s t : List Char), '/' ∉ a → '/' ∉ b →
      (s = [] ∨ ∃ u, s = '/' :: u) → (t = [] ∨ ∃ u, t = '/' :: u) →
      a ++ s = b ++ t → a = b := by
  induction a with
  | nil =>
    intro b s t _ hb hs ht h
    cases b with
    | nil => rfl
    | cons c b =>
      exfalso
      rcases hs with rfl | ⟨u, rfl⟩
      · simp at h
      · simp only [List.nil_append, List.cons_append, List.cons.injEq] at h
        exact hb (h.1 ▸ List.mem_cons_self _ _)
  | cons c a ih =>
    intro b s t ha hb hs ht h
    cases b with
    | nil =>
      exfalso
      rcases ht with rfl | ⟨u, rfl⟩
      · simp at h
      · simp only [List.nil_append, List.cons_append, List.cons.injEq] at h
        exact ha (h.1 ▸ List.mem_cons_self _ _)
    | cons c' b =>
      simp only [List.cons_append, List.cons.injEq] at h
      have ha' : '/' ∉ a := fun hm => ha (List.mem_cons_of_mem _ hm)
      have hb' : '/' ∉ b := fun hm => hb (List.mem_cons_of_mem _ hm)
      rw [h.1, ih b s t ha' hb' hs ht h.2]

theorem SlashTail.data {t : String} (h : SlashTail t) :
    t.data = [] ∨ ∃ u, t.data = '/' :: u := by
  rcases h with rfl | ⟨u, rfl⟩
  · exact Or.inl rfl
  · exact Or.inr ⟨u.data, by simp⟩

/-- Two paths `root/n₁t₁` and `root/n₂t₂` with slash-free names are equal only if the names
are. -/
theorem name_cancel (root n₁ n₂ t₁ t₂ : String) (h₁ : '/' ∉ n₁.data) (h₂ : '/' ∉ n₂.data)
    (ht₁ : SlashTail t₁) (ht₂ : SlashTail t₂)
    (h : root ++ "/" ++ n₁ ++ t₁ = root ++ "/" ++ n₂ ++ t₂) : n₁ = n₂ := by
  have hd := congrArg String.data h
  simp only [String.data_append, List.append_assoc] at hd
  have hd' := List.append_cancel_left (List.append_cancel_left hd)
  exact String.ext (name_cancel_list _ _ _ _ h₁ h₂ ht₁.data ht₂.data hd')

theorem wellNamed_cons {f : FileInfo} {sub : Listing} {e : Option String} {rest : Listing}
    (h : (Listing.cons f sub e rest).wellNamed = true) :
    '/' ∉ f.Name.data ∧ f.Name ∉ rest.names ∧ (f.IsDir = true → sub.wellNamed = true) ∧
      rest.wellNamed = true := by
  simp only [Listing.wellNamed, Bool.and_eq_true, Bool.not_eq_true', Bool.or_eq_true,
    decide_eq_true_eq] at h
  obtain ⟨⟨⟨h1, h2⟩, h3⟩, h4⟩ := h
  refine ⟨h1, h2, ?_, h4⟩
  intro hd
  rcases h3 with h3 | h3
  · rw [hd] at h3
    cases h3
  · exact h3

theorem wellNamed_names (l : Listing) :
    l.wellNamed = true → ∀ n ∈ l.names, '/' ∉ n.data := by
  induction l with
  | nil =>
    intro _ n hn
    cases hn
  | cons f sub e rest _ ihr =>
    intro h n hn
    obtain ⟨h1, _, _, h4⟩ := wellNamed_cons h
    rcases List.mem_cons.1 hn with rfl | hn
    · exact h1
    · exact ihr h4 n hn

/-- Every path emitted below `root` is `root/n` followed by nothing or by a slash and more,
for the name `n` of an entry of the listing of `root`. -/
theorem findFilesRange_path (l : Listing) :
    ∀ (root : String) (r : file), r ∈ (findFilesRange root l).files →
      ∃ n ∈ l.names, ∃ t, SlashTail t ∧ r.name = root ++ "/" ++ n ++ t := by
  induction l with
  | nil =>
    intro root r hr
    cases hr
  | cons f sub e rest ihs ihr =>
    intro root r hr
    cases hd : f.IsDir
    · rw [findFilesRange_file root f sub e rest hd] at hr
      rcases List.mem_cons.1 hr with rfl | hr
      · exact ⟨f.Name, List.mem_cons_self _ _, "", Or.inl rfl, (String.append_empty _).symm⟩
      · obtain ⟨n, hn, t, ht, hp⟩ := ihr root r hr
        exact ⟨n, List.mem_cons_of_mem _ hn, t, ht, hp⟩
    · rw [findFilesRange_dir root f sub e rest hd] at hr
      rcases List.mem_append.1 hr with hr | hr
      · obtain ⟨n, _, t, _, hp⟩ := ihs (root ++ "/" ++ f.Name) r hr
        refine ⟨f.Name, List.mem_cons_self _ _, "/" ++ (n ++ t), Or.inr ⟨_, rfl⟩, ?_⟩
        rw [hp]
        simp only [String.append_assoc]
      · obtain ⟨n, hn, t, ht, hp⟩ := ihr root r hr
        exact ⟨n, List.mem_cons_of_mem _ hn, t, ht, hp⟩

/-- Under one root the emitted paths are pairwise distinct. -/
theorem findFilesRange_nodup (l : Listing) :
    ∀ root : String, l.wellNamed = true →
      ((findFilesRange root l).files.map file.name).Nodup := by
  induction l with
  | nil =>
    intro root _
    exact List.nodup_nil
  | cons f sub e rest ihs ihr =>
    intro root h
    obtain ⟨h1, h2, h3, h4⟩ := wellNamed_cons h
    have hrest := ihr root h4
    have hsep : ∀ (t : String), SlashTail t →
        ∀ r ∈ (findFilesRange root rest).files, root ++ "/" ++ f.Name ++ t ≠ r.name := by
      intro t ht r hr heq
      obtain ⟨n, hn, t', ht', hp⟩ := findFilesRange_path rest root r hr
      rw [hp] at heq
      have := name_cancel root f.Name n t t' h1 (wellNamed_names rest h4 n hn) ht ht' heq
      exact h2 (this ▸ hn)
    cases hd : f.IsDir
    · rw [findFilesRange_file root f sub e rest hd]
      simp only [List.map_cons, List.nodup_cons, List.mem_map, not_exists, not_and]
      refine ⟨?_, hrest⟩
      intro r hr heq
      exact hsep "" (Or.inl rfl) r hr (by rw [String.append_empty]; exact heq.symm)
    · rw [findFilesRange_dir root f sub e rest hd]
      simp only [findFiles, List.map_append]
      rw [List.nodup_append]
      refine ⟨ihs _ (h3 hd), hrest, ?_⟩
      rw [List.disjoint_left]
      intro p hp1 hp2
      obtain ⟨r1, hr1, rfl⟩ := List.mem_map.1 hp1
      obtain ⟨r2, hr2, heq⟩ := List.mem_map.1 hp2
      obtain ⟨n, _, t, _, hp⟩ := findFilesRange_path sub (root ++ "/" ++ f.Name) r1 hr1
      refine hsep ("/" ++ (n ++ t)) (Or.inr ⟨_, rfl⟩) r2 hr2 ?_
      rw [heq, hp]
      simp only [String.append_assoc]

theorem scanRoots_foldl (getFiles : String → Listing × Option String) (dirs : List String) :
    ∀ acc : Traversal,
      dirs.foldl (fun acc dir =>
        (⟨acc.files ++ (findFiles dir (getFiles dir).1 (getFiles dir).2).files,
          acc.stderr ++ (findFiles dir (getFiles dir).1 (getFiles dir).2).stderr⟩ :
            Traversal)) acc =
      ⟨acc.files ++
          dirs.flatMap (fun dir => (findFiles dir (getFiles dir).1 (getFiles dir).2).files),
        acc.stderr ++
          dirs.flatMap (fun dir => (findFiles dir (getFiles dir).1 (getFiles dir).2).stderr)⟩ := by
  induction dirs with
  | nil =>
    intro acc
    simp
  | cons dir dirs ih =>
    intro acc
    rw [List.foldl_cons, ih]
    simp [List.flatMap_cons]

theorem scanRoots_files (getFiles : String → Listing × Option String) (dirs : List String) :
    (scanRoots getFiles dirs).files =
      dirs.flatMap (fun dir => (findFiles dir (getFiles dir).1 (getFiles dir).2).files) := by
  unfold scanRoots
  rw [scanRoots_foldl]
  simp

/-- Two paths that begin with `a/` and with `b/` are equal only if one of `a/`, `b/` is the
beginning of the other. -/
theorem roots_related (a b x y : String) (h : a ++ "/" ++ x = b ++ "/" ++ y) :
    ∃ t : String, a ++ "/" ++ t = b ++ "/" ∨ b ++ "/" ++ t = a ++ "/" := by
  have hd := congrArg String.data h
  simp only [String.data_append] at hd
  rcases List.append_eq_append_iff.1 hd with ⟨a', h1, _⟩ | ⟨c', h1, _⟩
  · refine ⟨⟨a'⟩, Or.inl (String.ext ?_)⟩
    simp only [String.data_append]
    exact h1.symm
  · refine ⟨⟨c'⟩, Or.inr (String.ext ?_)⟩
    simp only [String.data_append]
    exact h1.symm

/-! # The properties -/

/-- C1: for every sequence of records received by `findSize` and every order of visiting the
map, the emitted groups are the partition of the sequence by size: the groups, put one
after the other, are a rearrangement of the input (every record in one group, also when a
record comes twice), every group is non-empty and is the input restricted to one size, two
records of the input are in a common group if and only if their sizes are equal, members of
different groups have different sizes, and there are as many groups as distinct sizes. -/
theorem findSize_is_partition (ord : RangeOrder Int) (files : List file) :
    (findSize ord files).flatten.Perm files ∧
    (∀ g ∈ findSize ord files, g ≠ [] ∧
      ∃ s, g = files.filter (fun f => decide (f.size = s))) ∧
    (∀ a ∈ files, ∀ b ∈ files,
      (∃ g ∈ findSize ord files, a ∈ g ∧ b ∈ g) ↔ a.size = b.size) ∧
    (findSize ord files).Pairwise (fun g h => ∀ a ∈ g, ∀ b ∈ h, a.size ≠ b.size) ∧
    (findSize ord files).length = (files.map file.size).dedup.length := by
  have h := findSize_partitionBy ord files
  refine ⟨h.perm, fun g hg => ⟨h.nonempty g hg, h.filter g hg⟩, ?_, h.apart, h.length⟩
  intro a ha b hb
  constructor
  · rintro ⟨g, hg, hag, hbg⟩
    exact h.same_key hg hag hbg
  · exact h.together a ha b hb

/-- C2: for every list of records given to `clusterMd5` in which every file can be hashed,
and every order of visiting the map: the returned groups put end to end are a
rearrangement of the input records with their digests filled in (every record in one
group), every group is non-empty, its members carry one and the same digest, which is the
digest `md5File` gives for each of them, two input records are in a common group if and
only if `md5File` gives them equal digests (the groups are maximal), members of different
groups have different digests, and nothing is written to stderr. -/
theorem clusterMd5_is_partition (os : OS) (ord : RangeOrder String) (files : List file)
    (hok : ∀ f ∈ files, ∃ d, md5File os f.name = Except.ok d) :
    (clusterMd5 os ord files).clusters.flatten.Perm (files.map (hashed os)) ∧
    (∀ g ∈ (clusterMd5 os ord files).clusters, g ≠ [] ∧
      ∀ a ∈ g, ∀ b ∈ g, a.md5 = b.md5 ∧ md5File os a.name = Except.ok a.md5) ∧
    (∀ a ∈ files, ∀ b ∈ files,
      (∃ g ∈ (clusterMd5 os ord files).clusters, hashed os a ∈ g ∧ hashed os b ∈ g) ↔
        md5File os a.name = md5File os b.name) ∧
    (clusterMd5 os ord files).clusters.Pairwise
      (fun g h => ∀ a ∈ g, ∀ b ∈ h, a.md5 ≠ b.md5) ∧
    (clusterMd5 os ord files).stderr = [] := by
  have h := clusterMd5_partitionBy os ord files
  have hall := filter_hashable_of_all os files hok
  rw [hall] at h
  refine ⟨h.perm, ?_, ?_, h.apart, ?_⟩
  · intro g hg
    refine ⟨h.nonempty g hg, ?_⟩
    intro a ha b hb
    refine ⟨h.same_key hg ha hb, ?_⟩
    obtain ⟨f, _, hf, rfl⟩ := clusterMd5_mem os ord files hg ha
    exact md5File_eq_digest os f hf
  · intro a ha b hb
    have ea := md5File_eq_digest os a ((hashable_iff os a).2 (hok a ha))
    have eb := md5File_eq_digest os b ((hashable_iff os b).2 (hok b hb))
    constructor
    · rintro ⟨g, hg, hag, hbg⟩
      have e : digest os a = digest os b := h.same_key hg hag hbg
      rw [ea, eb, e]
    · intro e
      rw [ea, eb] at e
      exact h.together _ (List.mem_map_of_mem _ ha) _ (List.mem_map_of_mem _ hb)
        (Except.ok.inj e)
  · rw [clusterMd5_stderr, List.map_eq_nil_iff, List.filter_eq_nil_iff]
    intro f hf
    simp [(hashable_iff os f).2 (hok f hf)]

/-- C6: for every list of records given to `clusterMd5`: a record on which `md5File`
returns an error is in none of the returned groups (no member has its path), stderr
receives exactly one `can not hash file` string for each such record, in order, and the
returned groups are those returned for the list with the failing records removed, for
which nothing is written to stderr. -/
theorem clusterMd5_skips_failures (os : OS) (ord : RangeOrder String) (files : List file) :
    (∀ f ∈ files, ∀ e, md5File os f.name = Except.error e →
      (∀ g ∈ (clusterMd5 os ord files).clusters, ∀ a ∈ g, a.name ≠ f.name) ∧
      hashDiagnostic os f = "can not hash file '" ++ f.name ++ "': " ++ e ++ "\n") ∧
    (clusterMd5 os ord files).stderr =
      (files.filter (fun f => !hashable os f)).map (hashDiagnostic os) ∧
    (clusterMd5 os ord files).clusters =
      (clusterMd5 os ord (files.filter (hashable os))).clusters ∧
    (clusterMd5 os ord (files.filter (hashable os))).stderr = [] := by
  refine ⟨?_, clusterMd5_stderr os ord files, ?_, ?_⟩
  · intro f _ e he
    constructor
    · intro g hg a ha hname
      obtain ⟨f', _, hf', rfl⟩ := clusterMd5_mem os ord files hg ha
      obtain ⟨d, hd⟩ := (hashable_iff os f').1 hf'
      have : (hashed os f').name = f'.name := rfl
      rw [this] at hname
      rw [hname, he] at hd
      cases hd
    · simp [hashDiagnostic, he]
  · rw [clusterMd5_clusters, clusterMd5_clusters, List.filter_filter]
    simp
  · rw [clusterMd5_stderr, List.filter_filter]
    simp

/-- C3: for every sequence of records whose files can all be hashed, fed through `findSize`
and then `findMd5`, whatever the orders of visiting the maps: the groups sent on the
hash-cluster channel, put end to end, are a rearrangement of the input records with their
digests filled in; every group is non-empty and its members share one size and one digest
(the digest `md5File` gives); two records of the input are in a common group if and only
if they have equal size and equal digest; members of different groups differ in size or
digest; and in the scenario (A, B of size 10 holding x, C of size 10 holding y, D of size
20) the groups are exactly {A, B}, {C}, {D}. -/
theorem findMd5_findSize_groups (os : OS) (ordS : RangeOrder Int) (ordH : RangeOrder String)
    (files : List file) (hok : ∀ f ∈ files, ∃ d, md5File os f.name = Except.ok d) :
    (findMd5 os ordH (findSize ordS files)).clusters.flatten.Perm (files.map (hashed os)) ∧
    (∀ g ∈ (findMd5 os ordH (findSize ordS files)).clusters, g ≠ [] ∧
      ∀ a ∈ g, ∀ b ∈ g,
        a.size = b.size ∧ a.md5 = b.md5 ∧ md5File os a.name = Except.ok a.md5) ∧
    (∀ a ∈ files, ∀ b ∈ files,
      (∃ g ∈ (findMd5 os ordH (findSize ordS files)).clusters,
          hashed os a ∈ g ∧ hashed os b ∈ g) ↔
        (a.size = b.size ∧ md5File os a.name = md5File os b.name)) ∧
    (findMd5 os ordH (findSize ordS files)).clusters.Pairwise
      (fun g h => ∀ a ∈ g, ∀ b ∈ h, ¬ (a.size = b.size ∧ a.md5 = b.md5)) ∧
    (findMd5 scenarioOS ordH (findSize ordS scenarioFiles)).clusters.Perm
      [[⟨"A", 10, "x"⟩, ⟨"B", 10, "x"⟩], [⟨"C", 10, "y"⟩], [⟨"D", 20, "z"⟩]] := by
  have hS := findSize_partitionBy ordS files
  have hokc : ∀ c ∈ findSize ordS files, ∀ f ∈ c, ∃ d, md5File os f.name = Except.ok d :=
    fun c hc f hf => hok f (hS.mem_input hc hf)
  have hF : ∀ c ∈ findSize ordS files,
      PartitionBy file.md5 (c.map (hashed os)) (clusterMd5 os ordH c).clusters :=
    fun c hc => clusterMd5_partitionBy_of_all os ordH c (hokc c hc)
  rw [findMd5_clusters]
  refine ⟨?_, ?_, ?_, ?_, ?_⟩
  · have h1 := flatten_flatMap_perm (fun c => (clusterMd5 os ordH c).clusters)
      (fun c => c.map (hashed os)) (findSize ordS files) (fun c hc => (hF c hc).perm)
    rw [flatMap_map_eq] at h1
    exact h1.trans (hS.perm.map (hashed os))
  · intro g hg
    obtain ⟨c, hc, hgc⟩ := List.mem_flatMap.1 hg
    refine ⟨(hF c hc).nonempty g hgc, ?_⟩
    intro a ha b hb
    obtain ⟨fa, hfa, hha, rfl⟩ := clusterMd5_mem os ordH c hgc ha
    obtain ⟨fb, hfb, _, rfl⟩ := clusterMd5_mem os ordH c hgc hb
    have hsz : fa.size = fb.size := hS.same_key hc hfa hfb
    exact ⟨hsz, (hF c hc).same_key hgc ha hb, md5File_eq_digest os fa hha⟩
  · intro a ha b hb
    have ea := md5File_eq_digest os a ((hashable_iff os a).2 (hok a ha))
    have eb := md5File_eq_digest os b ((hashable_iff os b).2 (hok b hb))
    constructor
    · rintro ⟨g, hg, hag, hbg⟩
      obtain ⟨c, hc, hgc⟩ := List.mem_flatMap.1 hg
      obtain ⟨fa, hfa, _, hea⟩ := clusterMd5_mem os ordH c hgc hag
      obtain ⟨fb, hfb, _, heb⟩ := clusterMd5_mem os ordH c hgc hbg
      have hsz : fa.size = fb.size := hS.same_key hc hfa hfb
      have e1 : (hashed os a).size = (hashed os fa).size := congrArg file.size hea
      have e2 : (hashed os b).size = (hashed os fb).size := congrArg file.size heb
      change a.size = fa.size at e1
      change b.size = fb.size at e2
      have e : digest os a = digest os b := (hF c hc).same_key hgc hag hbg
      exact ⟨by rw [e1, e2, hsz], by rw [ea, eb, e]⟩
    · rintro ⟨hsz, e⟩
      rw [ea, eb] at e
      obtain ⟨c, hc, hac, hbc⟩ := hS.together a ha b hb hsz
      obtain ⟨g, hg, hag, hbg⟩ := (hF c hc).together _ (List.mem_map_of_mem _ hac) _
        (List.mem_map_of_mem _ hbc) (Except.ok.inj e)
      exact ⟨g, List.mem_flatMap.2 ⟨c, hc, hg⟩, hag, hbg⟩
  · rw [List.pairwise_flatMap]
    constructor
    · intro c hc
      refine (hF c hc).apart.imp ?_
      intro g h hne a ha b hb hab
      exact hne a ha b hb hab.2
    · refine hS.apart.imp_of_mem ?_
      intro c c' hc hc' hne g hg h hh a ha b hb hab
      obtain ⟨fa, hfa, _, rfl⟩ := clusterMd5_mem os ordH c hg ha
      obtain ⟨fb, hfb, _, rfl⟩ := clusterMd5_mem os ordH c' hh hb
      exact hne fa hfa fb hfb hab.1
  · exact scenario_clusters ordS ordH

theorem findMd5_findSize_groups_witness :
    (∀ f ∈ scenarioFiles, ∃ d, md5File scenarioOS f.name = Except.ok d) ∧
    (findMd5 scenarioOS (RangeOrder.inOrder String)
      (findSize (RangeOrder.inOrder Int) scenarioFiles)).clusters.flatten.Perm
        (scenarioFiles.map (hashed scenarioOS)) :=
  ⟨scenario_hashable,
    (findMd5_findSize_groups scenarioOS (RangeOrder.inOrder Int) (RangeOrder.inOrder String)
      scenarioFiles scenario_hashable).1⟩

theorem clusterMd5_is_partition_witness :
    (∀ f ∈ scenarioFiles, ∃ d, md5File scenarioOS f.name = Except.ok d) ∧
    (clusterMd5 scenarioOS (RangeOrder.reversed String) scenarioFiles).stderr = [] :=
  ⟨scenario_hashable,
    (clusterMd5_is_partition scenarioOS (RangeOrder.reversed String) scenarioFiles
      scenario_hashable).2.2.2.2⟩

/-- C4, as stated, fails: for one cluster of three files of 2^62 bytes the sum of
`(n - 1) * s` is 2^63 = 9223372036854775808, and `printClusters` prints
-9223372036854775808, the `int64` sum having wrapped around. -/
theorem printClusters_overflow :
    (∀ c ∈ hugeCluster, c ≠ [] ∧ ∀ f ∈ c, f.size = 2 ^ 62) ∧
    wasted (fun _ => 2 ^ 62) hugeCluster = 9223372036854775808 ∧
    printClusters hugeCluster =
      some ⟨["a", "b", "c", ""], ["duplicated size: -9223372036854775808 B\n"]⟩ ∧
    printClusters hugeCluster ≠
      some ⟨["a", "b", "c", ""],
        ["duplicated size: " ++ toString (wasted (fun _ => 2 ^ 62) hugeCluster) ++ " B\n"]⟩ := by
  decide

/-- C4, amended: for every sequence of non-empty clusters received by `printClusters` in
which all members of a cluster `c` have the same size `sz c`, `printClusters` does not
panic and the number in the final `duplicated size` string is the sum, over the clusters
with `n ≥ 2` members, of `(n - 1) * s`, reduced to `int64` (wrapping around modulo 2^64);
it is that sum itself whenever the sum lies in the `int64` range.  A cluster with `n ≥ 2`
members adds `(n - 1) * s` to the sum and a cluster with one member adds nothing. -/
theorem printClusters_wasted (cs : List (List file)) (sz : List file → Int)
    (h : ∀ c ∈ cs, c ≠ [] ∧ ∀ f ∈ c, f.size = sz c) :
    (∃ r, printClusters cs = some r ∧
      r.stderr = ["duplicated size: " ++ toString (int64 (wasted sz cs)) ++ " B\n"]) ∧
    (-2 ^ 63 ≤ wasted sz cs → wasted sz cs < 2 ^ 63 → int64 (wasted sz cs) = wasted sz cs) ∧
    (∀ c, 2 ≤ c.length → wasted sz (c :: cs) = ((c.length : Int) - 1) * sz c + wasted sz cs) ∧
    (∀ c, c.length = 1 → wasted sz (c :: cs) = wasted sz cs) := by
  refine ⟨?_, int64_of_range _, ?_, ?_⟩
  · have hne : ∀ c ∈ cs, c ≠ [] := fun c hc => (h c hc).1
    have hw : wasted firstSize cs = wasted sz cs :=
      wasted_congr _ _ cs (fun c hc => firstSize_eq c (sz c) (h c hc).1 (h c hc).2)
    exact ⟨_, printClusters_eq cs hne, by rw [hw]⟩
  · intro c hc
    simp [wasted, duplicateClusters_cons_dup c cs hc]
  · intro c hc
    simp [wasted, duplicateClusters_cons_single c cs hc]

theorem printClusters_wasted_witness :
    (∀ c ∈ sampleClusters, c ≠ [] ∧ ∀ f ∈ c, f.size = firstSize c) ∧
    wasted firstSize sampleClusters = 24 ∧
    ∃ r, printClusters sampleClusters = some r ∧
      r.stderr = ["duplicated size: " ++ toString (int64 (wasted firstSize sampleClusters)) ++
        " B\n"] :=
  ⟨by decide, by decide,
    (printClusters_wasted sampleClusters firstSize (by decide)).1⟩

/-- C5: for every sequence of non-empty clusters received by `printClusters`, the lines
written to standard output are exactly, for each cluster with at least two members in the
order received, the path of each member and then one empty line.  A cluster with a single
member writes nothing: every line written is empty or the path of a member of a cluster
with at least two members, and removing the clusters with a single member from the
sequence leaves the output as it is. -/
theorem printClusters_stdout (cs : List (List file)) (h : ∀ c ∈ cs, c ≠ []) :
    (∃ r, printClusters cs = some r ∧
      r.stdout = (cs.filter (fun c => decide (2 ≤ c.length))).flatMap
        (fun c => c.map file.name ++ [""]) ∧
      ∀ line ∈ r.stdout, line = "" ∨ ∃ c ∈ cs, 2 ≤ c.length ∧ ∃ f ∈ c, f.name = line) ∧
    printClusters (cs.filter (fun c => decide (c.length ≠ 1))) = printClusters cs ∧
    ((∀ c ∈ cs, c.length = 1) →
      printClusters cs = some ⟨[], ["duplicated size: 0 B\n"]⟩) := by
  have hfil : ∀ c ∈ cs.filter (fun c => decide (c.length ≠ 1)), c ≠ [] :=
    fun c hc => h c (List.mem_filter.1 hc).1
  have hdup : duplicateClusters (cs.filter (fun c => decide (c.length ≠ 1))) =
      duplicateClusters cs := by
    unfold duplicateClusters
    rw [List.filter_filter]
    apply List.filter_congr
    intro c _
    by_cases h2 : 2 ≤ c.length
    · have : c.length ≠ 1 := by omega
      simp [h2, this]
    · simp [h2]
  refine ⟨⟨_, printClusters_eq cs h, rfl, ?_⟩, ?_, ?_⟩
  · intro line hl
    simp only [duplicateLines, duplicateClusters, List.mem_flatMap, List.mem_filter,
      decide_eq_true_eq, List.mem_append, List.mem_map, List.mem_singleton] at hl
    obtain ⟨c, ⟨hc, h2⟩, hf | hf⟩ := hl
    · exact Or.inr ⟨c, hc, h2, hf⟩
    · exact Or.inl hf
  · rw [printClusters_eq cs h, printClusters_eq _ hfil]
    simp only [duplicateLines, wasted, hdup]
  · intro hall
    have hnone : duplicateClusters cs = [] := by
      unfold duplicateClusters
      rw [List.filter_eq_nil_iff]
      intro c hc
      simp [hall c hc]
    rw [printClusters_eq cs h]
    simp only [duplicateLines, wasted, hnone, List.flatMap_nil, List.map_nil, List.sum_nil]
    decide

theorem printClusters_stdout_witness :
    (∀ c ∈ sampleClusters, c ≠ []) ∧
    ∃ r, printClusters sampleClusters = some r ∧
      r.stdout = ["r/a", "r/b", "", "r/d", "r/e", "r/f", ""] ∧
      ∀ line ∈ r.stdout, line = "" ∨
        ∃ c ∈ sampleClusters, 2 ≤ c.length ∧ ∃ f ∈ c, f.name = line :=
  ⟨by decide, (printClusters_stdout sampleClusters (by decide)).1⟩

/-- C10: for every input and every order of visiting the maps, every group emitted by
`findSize`, every group returned by `clusterMd5` and every group sent by `findMd5` is
non-empty; on an empty input `findSize` emits no group, and `clusterMd5` returns no group
when every file fails to hash; so `c[0]` in `printClusters` is always in range:
`printClusters` does not panic on non-empty clusters, and the pipeline of `main` always
gives its report. -/
theorem pipeline_clusters_nonempty (os : OS) (ordS : RangeOrder Int)
    (ordH : RangeOrder String) (files : List file) :
    (∀ g ∈ findSize ordS files, g ≠ []) ∧
    (∀ g ∈ (clusterMd5 os ordH files).clusters, g ≠ []) ∧
    (∀ sizeCl : List (List file), ∀ g ∈ (findMd5 os ordH sizeCl).clusters, g ≠ []) ∧
    findSize ordS [] = [] ∧
    ((∀ f ∈ files, hashable os f = false) → (clusterMd5 os ordH files).clusters = []) ∧
    (∀ cs : List (List file), (∀ c ∈ cs, c ≠ []) → ∃ r, printClusters cs = some r) ∧
    ∃ r, report os ordS ordH files = some r := by
  have hmd5 : ∀ sizeCl : List (List file), ∀ g ∈ (findMd5 os ordH sizeCl).clusters, g ≠ [] := by
    intro sizeCl g hg
    rw [findMd5_clusters] at hg
    obtain ⟨c, _, hgc⟩ := List.mem_flatMap.1 hg
    exact (clusterMd5_partitionBy os ordH c).nonempty g hgc
  refine ⟨(findSize_partitionBy ordS files).nonempty,
    (clusterMd5_partitionBy os ordH files).nonempty, hmd5, ?_, ?_,
    fun cs hcs => ⟨_, printClusters_eq cs hcs⟩, ⟨_, printClusters_eq _ (hmd5 _)⟩⟩
  · have hp := ordS.perm (sizeMap [])
    have : sizeMap [] = [] := rfl
    rw [this] at hp
    rw [findSize_eq, this, List.Perm.eq_nil hp]
    rfl
  · intro hall
    have hnone : files.filter (hashable os) = [] := by
      rw [List.filter_eq_nil_iff]
      intro f hf
      simp [hall f hf]
    have hp := ordH.perm (groupInto file.md5 [] [])
    have : groupInto file.md5 [] [] = [] := rfl
    rw [this] at hp
    rw [clusterMd5_clusters, hnone, List.map_nil, this, List.Perm.eq_nil hp]
    rfl

/-- C7, as stated, fails: when the listing of the directory `r/d` fails after the entry `x`
was read, `getFiles` returns that entry together with the error, and `findFiles` reports
the error and still emits `r/d/x`, a record from the subtree of `r/d` that is not emitted
when `r/d` is an empty readable directory. -/
theorem findFiles_broken_listing :
    ReplaceDir "r" brokenTree "r/d"
      (Listing.cons ⟨"x", 5, FileMode.regular⟩ Listing.nil none Listing.nil,
        some "input/output error")
      (Listing.nil, none) emptiedTree ∧
    findFiles "r" brokenTree none =
      ⟨[⟨"r/d/x", 5, ""⟩, ⟨"r/y", 7, ""⟩],
        ["error reading directory 'r/d': input/output error\n"]⟩ ∧
    findFiles "r" emptiedTree none = ⟨[⟨"r/y", 7, ""⟩], []⟩ ∧
    (findFiles "r" brokenTree none).files ≠ (findFiles "r" emptiedTree none).files :=
  ⟨ReplaceDir.here "r" ⟨"d", 4096, FileMode.directory⟩
      (Listing.cons ⟨"x", 5, FileMode.regular⟩ Listing.nil none Listing.nil)
      (some "input/output error")
      (Listing.cons ⟨"y", 7, FileMode.regular⟩ Listing.nil none Listing.nil)
      (Listing.nil, none) rfl,
    by decide, by decide, by decide⟩

/-- C7, amended: for every directory tree and every directory `d` in it for which
`getFiles` returns an error `e` (with the entries `sub` read before it, none when the
directory cannot be opened), `findFiles` writes one `error reading directory` string for
`d`, emits for the subtree of `d` the records of the entries returned with the error, and
for the rest of the tree emits the same records, and writes the same strings, in the same
order, as when `d` is an empty readable directory (`l'`); when no entry was returned with
the error the records are those of the tree with `d` empty and readable.  The same holds
for the root: an error of `getFiles(root)` adds one string and changes no record. -/
theorem findFiles_unreadable_directory (root : String) (l : Listing) (err : Option String)
    (d : String) (sub : Listing) (e : String) (l' : Listing)
    (h : ReplaceDir root l d (sub, some e) (Listing.nil, none) l') :
    (∃ pf qf ps qs,
      (findFiles root l err).files = pf ++ (findFilesRange d sub).files ++ qf ∧
      (findFiles root l' err).files = pf ++ qf ∧
      (findFiles root l err).stderr =
        ps ++ ["error reading directory '" ++ d ++ "': " ++ e ++ "\n"] ++
          (findFilesRange d sub).stderr ++ qs ∧
      (findFiles root l' err).stderr = ps ++ qs) ∧
    (sub = Listing.nil → (findFiles root l err).files = (findFiles root l' err).files) ∧
    (findFiles root l (some e)).files = (findFiles root l none).files ∧
    (findFiles root l (some e)).stderr =
      ("error reading directory '" ++ root ++ "': " ++ e ++ "\n") ::
        (findFiles root l none).stderr ∧
    findFiles root Listing.nil (some e) =
      ⟨[], ["error reading directory '" ++ root ++ "': " ++ e ++ "\n"]⟩ := by
  obtain ⟨pf, qf, ps, qs, h1, h2, h3, h4⟩ := h.decompose
  have hf : (findFiles root l err).files = pf ++ (findFilesRange d sub).files ++ qf := by
    simpa [findFiles] using h1
  have hf' : (findFiles root l' err).files = pf ++ qf := by
    simpa [findFiles, findFilesRange] using h2
  refine ⟨⟨pf, qf, reportDir root err ++ ps, qs, hf, hf', ?_, ?_⟩, ?_, rfl, rfl, rfl⟩
  · simp only [findFiles, reportDir, List.append_assoc] at h3 ⊢
    rw [h3]
  · simp only [findFiles, reportDir, findFilesRange, List.append_assoc] at h4 ⊢
    rw [h4]
    simp
  · intro hs
    rw [hf, hf', hs]
    simp [findFilesRange]

theorem findFiles_unreadable_directory_witness :
    ReplaceDir "r" brokenTree "r/d"
      (Listing.cons ⟨"x", 5, FileMode.regular⟩ Listing.nil none Listing.nil,
        some "input/output error")
      (Listing.nil, none) emptiedTree ∧
    (findFiles "r" brokenTree (some "input/output error")).files =
      (findFiles "r" brokenTree none).files :=
  ⟨ReplaceDir.here "r" ⟨"d", 4096, FileMode.directory⟩
      (Listing.cons ⟨"x", 5, FileMode.regular⟩ Listing.nil none Listing.nil)
      (some "input/output error")
      (Listing.cons ⟨"y", 7, FileMode.regular⟩ Listing.nil none Listing.nil)
      (Listing.nil, none) rfl,
    (findFiles_unreadable_directory "r" brokenTree none "r/d"
      (Listing.cons ⟨"x", 5, FileMode.regular⟩ Listing.nil none Listing.nil)
      "input/output error" emptiedTree
      (ReplaceDir.here "r" ⟨"d", 4096, FileMode.directory⟩
        (Listing.cons ⟨"x", 5, FileMode.regular⟩ Listing.nil none Listing.nil)
        (some "input/output error")
        (Listing.cons ⟨"y", 7, FileMode.regular⟩ Listing.nil none Listing.nil)
        (Listing.nil, none) rfl)).2.2.1⟩

/-- C8, as stated, fails: in a tree whose directories are all readable, the symbolic link
`r/l` and the named pipe `r/s/p` are emitted, and no regular file is reachable at the path
`r/l`; `findFiles` tests only `IsDir`. -/
theorem findFiles_emits_symlink :
    mixedTree.readable = true ∧
    findFiles "r" mixedTree none =
      ⟨[⟨"r/a", 3, ""⟩, ⟨"r/l", 1, ""⟩, ⟨"r/s/p", 0, ""⟩], []⟩ ∧
    ¬ (∀ r ∈ (findFiles "r" mixedTree none).files,
        ∃ g, Reachable "r" mixedTree r.name g ∧ g.IsRegular = true) := by
  refine ⟨by decide, by decide, ?_⟩
  intro hall
  have hmem : (⟨"r/l", 1, ""⟩ : file) ∈ (findFiles "r" mixedTree none).files := by decide
  obtain ⟨g, hg, hreg⟩ := hall _ hmem
  have hg' := (mem_reachableEntries mixedTree "r" "r/l" g).2 hg
  have key : ∀ pg ∈ reachableEntries "r" mixedTree, pg.1 = "r/l" → pg.2.IsRegular = false := by
    decide
  have := key _ hg' rfl
  rw [hreg] at this
  cases this

/-- C8, amended: for every root path over a finite directory tree whose directories are all
readable, the records emitted by `findFiles` are exactly one record (path `root/.../name`
and the size of the entry) for every entry reachable by recursive descent from the root
that is not a directory, regular file or not, in the order of the descent: every emitted
record is such an entry, no directory is ever emitted, no reachable regular file is
missing, and nothing is written to stderr. -/
theorem findFiles_nondirectories (root : String) (l : Listing) (h : l.readable = true) :
    (findFiles root l none).files =
      ((reachableEntries root l).filter (fun pg => !pg.2.IsDir)).map recordOf ∧
    (∀ p g, (p, g) ∈ reachableEntries root l ↔ Reachable root l p g) ∧
    (∀ r, r ∈ (findFiles root l none).files ↔
      ∃ g, Reachable root l r.name g ∧ g.IsDir = false ∧ r = ⟨r.name, g.Size, ""⟩) ∧
    (∀ p g, Reachable root l p g → g.IsRegular = true →
      (⟨p, g.Size, ""⟩ : file) ∈ (findFiles root l none).files) ∧
    (findFiles root l none).stderr = [] := by
  have hfiles : (findFiles root l none).files =
      ((reachableEntries root l).filter (fun pg => !pg.2.IsDir)).map recordOf :=
    findFilesRange_files l root
  have hmem : ∀ r, r ∈ (findFiles root l none).files ↔
      ∃ g, Reachable root l r.name g ∧ g.IsDir = false ∧ r = ⟨r.name, g.Size, ""⟩ := by
    intro r
    rw [hfiles, List.mem_map]
    constructor
    · rintro ⟨⟨p, g⟩, hpg, rfl⟩
      rw [List.mem_filter] at hpg
      refine ⟨g, (mem_reachableEntries l root p g).1 hpg.1, by simpa using hpg.2, rfl⟩
    · rintro ⟨g, hg, hd, hr⟩
      refine ⟨(r.name, g), ?_, ?_⟩
      · rw [List.mem_filter]
        exact ⟨(mem_reachableEntries l root r.name g).2 hg, by simp [hd]⟩
      · rw [hr]
        rfl
  refine ⟨hfiles, mem_reachableEntries l root, hmem, ?_, ?_⟩
  · intro p g hg hreg
    rw [hmem]
    refine ⟨g, hg, ?_, rfl⟩
    unfold FileInfo.IsRegular at hreg
    unfold FileInfo.IsDir
    have hm : g.Mode = FileMode.regular := by simpa using hreg
    simp [hm]
  · simp [findFiles, reportDir, findFilesRange_stderr_readable l root h]

theorem findFiles_nondirectories_witness :
    mixedTree.readable = true ∧
    (findFiles "r" mixedTree none).files =
      ((reachableEntries "r" mixedTree).filter (fun pg => !pg.2.IsDir)).map recordOf ∧
    (findFiles "r" mixedTree none).stderr = [] :=
  ⟨by decide, (findFiles_nondirectories "r" mixedTree (by decide)).1,
    (findFiles_nondirectories "r" mixedTree (by decide)).2.2.2.2⟩

/-- C9, as stated, fails: when the same directory is given twice as an argument, the file in
it is emitted twice with the same path. -/
theorem scanRoots_repeated_root :
    ["a", "a"] ≠ ([] : List String) ∧
    (scanRoots oneFile ["a", "a"]).files = [⟨"a/f", 1, ""⟩, ⟨"a/f", 1, ""⟩] ∧
    ¬ ((scanRoots oneFile ["a", "a"]).files.map file.name).Nodup := by
  decide

/-- C9, amended: for every list of root arguments of which none, followed by a slash, is the
beginning of another followed by a slash (so no argument is repeated and none is a path
below another), over directory trees in which no name contains a slash and no two entries
of a directory have the same name, the records emitted on the files channel by the
traversal of all roots have pairwise distinct paths. -/
theorem scanRoots_distinct_paths (getFiles : String → Listing × Option String)
    (dirs : List String)
    (hnames : ∀ dir ∈ dirs, (getFiles dir).1.wellNamed = true)
    (hroots : dirs.Pairwise
      (fun a b => ∀ t : String, a ++ "/" ++ t ≠ b ++ "/" ∧ b ++ "/" ++ t ≠ a ++ "/")) :
    ((scanRoots getFiles dirs).files.map file.name).Nodup := by
  rw [scanRoots_files, List.map_flatMap]
  unfold List.Nodup
  rw [List.pairwise_flatMap]
  constructor
  · intro dir hdir
    exact findFilesRange_nodup (getFiles dir).1 dir (hnames dir hdir)
  · refine hroots.imp ?_
    intro a b hab p hp q hq hpq
    obtain ⟨r1, hr1, rfl⟩ := List.mem_map.1 hp
    obtain ⟨r2, hr2, rfl⟩ := List.mem_map.1 hq
    obtain ⟨n1, _, t1, _, e1⟩ := findFilesRange_path (getFiles a).1 a r1 hr1
    obtain ⟨n2, _, t2, _, e2⟩ := findFilesRange_path (getFiles b).1 b r2 hr2
    rw [e1, e2] at hpq
    simp only [String.append_assoc] at hpq
    have hpq' : a ++ "/" ++ (n1 ++ t1) = b ++ "/" ++ (n2 ++ t2) := by
      simpa only [String.append_assoc] using hpq
    obtain ⟨t, ht | ht⟩ := roots_related a b _ _ hpq'
    · exact (hab t).1 ht
    · exact (hab t).2 ht

theorem scanRoots_distinct_paths_witness :
    (∀ dir ∈ ["a", "b"], ((fun _ => (mixedTree, none)) dir :
      Listing × Option String).1.wellNamed = true) ∧
    ((scanRoots (fun _ => (mixedTree, none)) ["a", "b"]).files.map file.name).Nodup :=
  ⟨by decide,
    scanRoots_distinct_paths (fun _ => (mixedTree, none)) ["a", "b"] (by decide) (by
      refine List.Pairwise.cons ?_ (List.Pairwise.cons ?_ List.Pairwise.nil)
      · intro b hb t
        rw [List.mem_singleton] at hb
        subst hb
        constructor
        · intro h
          have := congrArg String.data h
          simp at this
        · intro h
          have := congrArg String.data h
          simp at this
      · intro b hb
        cases hb)⟩

end Finddup
